import Mathlib

/-!
Shallow embedding of the tournament-economy settlement engine
(`src/src/index.tsx` and `src/unnamed/part_001` of the repository).

Modelling conventions:
* JavaScript floating-point numbers are embedded as exact rationals `ℚ`;
  numeric literals such as `0.15` become `15/100`.
* `Math.random()`-derived noise is an explicit input: every operation that
  draws noise takes the list of draws as an argument and is quantified over it.
* JS in-place mutation of the roster becomes explicit state passing: `tierRun`
  returns the updated roster in its result record.
* The JS sentinel `Infinity` (initial `prevTail` when `N < 2`) is modelled by
  `Option ℚ` with `none` standing for `Infinity`; its only use in the source is
  as the neutral element of `Math.min`.
* `part_001`'s `tierRun` generalizes `index.tsx`'s by the optional
  `fixedYTopK` argument; we embed the general version, the `index.tsx`
  variant is the instance `fixedYTopK = none`.
-/

-- The Batteries rational-number operations are `@[irreducible]`, which blocks
-- `decide` from evaluating concrete settlement computations; restore the
-- default reducibility so that the embedding stays executable by the kernel.
set_option allowUnsafeReducibility true in
attribute [semireducible] Rat.add Rat.mul Rat.sub Rat.inv Rat.div Rat.neg

/-- Competitor record `{ id, skill, chips }`.  `id` is an `Int` because the
Worlds event synthesizes external entrants with id `-1`. -/
structure Player where
  id : Int
  skill : ℚ
  chips : ℚ
deriving DecidableEq

/-- Default used for out-of-range list reads (JS would read `undefined`;
the orchestrator only ever passes in-range indices). -/
def defaultPlayer : Player := ⟨0, 0, 0⟩

/-- Descending-by-performance preorder on `(slot, value)` pairs: the JS
comparator `(a, b) => b.v - a.v`. -/
def perfDescOrder (a b : Nat × ℚ) : Prop := b.2 ≤ a.2

instance : DecidableRel perfDescOrder := fun a b => inferInstanceAs (Decidable (b.2 ≤ a.2))

instance : IsTotal (Nat × ℚ) perfDescOrder := ⟨fun a b => le_total b.2 a.2⟩

instance : IsTrans (Nat × ℚ) perfDescOrder := ⟨fun _ _ _ h1 h2 => le_trans h2 h1⟩

/-- Source `rankBy(values)`: sort indices descending by value with a stable
sort (JS `Array.prototype.sort` is required to be stable, so its result is
the unique stable order under the comparator preorder; `List.insertionSort`
is such a stable sort), producing `order`; then
`ranks[pid] = position of pid in order + 1`.  The JS
`order.forEach((pid, k) => ranks[pid] = k + 1)` writes position `k+1`
into slot `pid`; since `order` is a duplicate-free enumeration of all slots,
this is `indexOf pid order + 1` slot by slot. -/
def rankBy (values : List ℚ) : List Nat × List Nat :=
  let order := (values.enum.insertionSort perfDescOrder).map (fun x => x.1)
  let ranks := (List.range values.length).map (fun pid => order.indexOf pid + 1)
  (order, ranks)

/-- Band specification `{ start, end, total }` of the weight builder.
The JS field `end` is called `stop` here (`end` is a Lean keyword). -/
structure Band where
  start : Nat
  stop : Nat
  total : ℚ
deriving DecidableEq

/-- Source guard `x < -1e-12 ? 0 : x` applied to the solved ramp
coefficients (`safeA`, `safeB`). -/
def floorTiny (x : ℚ) : ℚ :=
  if x < -(1 / 1000000000000) then 0 else x

/-- The `p ≥ 2` branch of the band loop: solve the linear ramp of pair
totals `T_k = A + B*k` with `Sum T_k = S` and head pair clamped at the
previous band's tail, floor tiny-negative coefficients, and write the `p`
pairs ending at rank `e`.  Returns the updated weights and the new
`prevTail = w2[e-1]`. -/
def bandRamp (e p : Nat) (S : ℚ) (prevTail : Option ℚ) (w : List ℚ) :
    List ℚ × Option ℚ :=
  let unconstrainedHeadPP := S / ((p : ℚ) + 1)
  let headPP := match prevTail with
    | none => unconstrainedHeadPP
    | some t => min t unconstrainedHeadPP
  let headPair := headPP * 2
  let denom : ℚ := ((p : ℚ) * (1 - (p : ℚ))) / 2 -- negative
  let B := (S - (p : ℚ) * headPair) / denom
  let A := headPair - B * (p : ℚ)
  let safeA := floorTiny A
  let safeB := floorTiny B
  -- loop k = 1..p writing the pair at ranks r1 = e-(k-1)*2-1 and r2 = r1+1;
  -- with k = k0+1 the 0-based slots are r1-1 = e-2*k0-2 and r2-1 = e-2*k0-1
  let w2 := (List.range p).foldl (fun wa (k0 : Nat) =>
    let Tk := safeA + safeB * ((k0 : ℚ) + 1)
    let per := Tk / 2
    let r1 : Nat := e - k0 * 2 - 1
    ((wa.set (r1 - 1) per).set r1 per)) w
  (w2, some (w2.getD (e - 1) 0))

/-- One iteration of the band loop of `buildMonotoneByPairs`: state is the
weight array together with `prevTail` (`none` models `Infinity`). -/
def bandStep (N : Nat) (acc : List ℚ × Option ℚ) (b : Band) : List ℚ × Option ℚ :=
  let w := acc.1
  let prevTail := acc.2
  let s := max 1 b.start
  let e := min b.stop N
  if e < s then (w, prevTail) -- m = e - s + 1 ≤ 0
  else
    let m0 := e - s + 1
    let m := if m0 % 2 ≠ 0 then m0 - 1 else m0 -- enforce even length
    let p := m / 2 -- number of pairs inside band
    let S := b.total -- band total mass (preserved)
    if p = 0 then (w, prevTail)
    else if p = 1 then
      -- single pair: split the whole band equally; ranks e-1 and e
      let per := S / 2
      (((w.set (e - 1 - 1) per).set (e - 1) per), some per)
    else
      bandRamp e p S prevTail w

/-- Source `buildMonotoneByPairs(N, top1, top2, bands)`. -/
def buildMonotoneByPairs (N : Nat) (top1 top2 : ℚ) (bands : List Band) : List ℚ :=
  let w0 : List ℚ := List.replicate N 0
  let w1 := if 1 ≤ N then w0.set 0 top1 else w0
  let w2 := if 2 ≤ N then w1.set 1 top2 else w1
  let prevTail : Option ℚ := if 2 ≤ N then some top2 else none
  (bands.foldl (bandStep N) (w2, prevTail)).1

/-- Source `weightsCup(N)` (Cup, 128 players). -/
def weightsCup (N : Nat) : List ℚ :=
  buildMonotoneByPairs N (15/100) (9/100)
    [⟨3, 4, 12/100⟩, ⟨5, 8, 16/100⟩, ⟨9, 16, 16/100⟩, ⟨17, 32, 16/100⟩, ⟨33, 64, 16/100⟩]

/-- Source `weightsReg(N)` (legacy Regionals, 32 players). -/
def weightsReg (N : Nat) : List ℚ :=
  buildMonotoneByPairs N (20/100) (12/100)
    [⟨3, 4, 16/100⟩, ⟨5, 8, 20/100⟩, ⟨9, 16, 32/100⟩]

/-- Source `weightsWorld(N)` (Worlds, 48 players). -/
def weightsWorld (N : Nat) : List ℚ :=
  buildMonotoneByPairs N (16/100) (10/100)
    [⟨3, 4, 14/100⟩, ⟨5, 8, 20/100⟩, ⟨9, 16, 24/100⟩, ⟨17, 32, 16/100⟩]

/-- Source `weightsReg48(N)` (S15 Regionals, 48 players). -/
def weightsReg48 (N : Nat) : List ℚ :=
  buildMonotoneByPairs N (15/100) (9/100)
    [⟨3, 4, 14/100⟩, ⟨5, 8, 20/100⟩, ⟨9, 16, 25/100⟩, ⟨17, 32, 17/100⟩]

/-- Source `weightsTPC(N)` (TPC, 32 players). -/
def weightsTPC (N : Nat) : List ℚ :=
  buildMonotoneByPairs N (18/100) (11/100)
    [⟨3, 4, 16/100⟩, ⟨5, 8, 19/100⟩, ⟨9, 16, 36/100⟩]

/-- Fixed-bonus policy of `tierRun` (`part_001` version): with
`giveYToTopHalf` set, rank `r` gets `y` when it is within the explicit
top-K cutoff if one is supplied, otherwise within the top half
(`Math.ceil(N/2) = (N+1)/2`); with `giveYToTopHalf` unset every rank
gets `y`. -/
def fixedBonus (N : Nat) (y : ℚ) (giveYToTopHalf : Bool) (fixedYTopK : Option Nat)
    (r : Nat) : ℚ :=
  if giveYToTopHalf then
    match fixedYTopK with
    | some K => if r ≤ K then y else 0
    | none => if r ≤ (N + 1) / 2 then y else 0
  else y

/-- Source `playersIdx.forEach((pi, j) => { players[pi].chips += deltas[j] })`. -/
def applyDeltas (players : List Player) (idx : List Nat) (deltas : List ℚ) : List Player :=
  (idx.zip deltas).foldl (fun ps pd =>
    match ps.get? pd.1 with
    | some p => ps.set pd.1 { p with chips := p.chips + pd.2 }
    | none => ps) players

/-- Result record of one settlement, plus the updated roster (the JS
function mutates `players` in place). -/
structure TierResult where
  order : List Nat
  ranks : List Nat
  deltas : List ℚ
  pool : ℚ
  fees : List ℚ
  payouts : List ℚ
  sharePool : List ℚ
  fixedY : List ℚ
  playersAfter : List Player
deriving DecidableEq

/-- Source `tierRun` (`part_001` lines 183-217; the `index.tsx` variant is
the instance `fixedYTopK = none`).  `noise` is the list of `normalLike()`
draws, one per participant.  The JS rank loop writes, for each rank
`r = 1..N`, into slot `ranks.findIndex(rr => rr === r)`; since `ranks` is a
permutation of `1..N` assigning every slot exactly once, slot `j` receives
exactly the values computed for `r = ranks[j]`, which is how the three
per-slot arrays are built here.  `weights[r-1] || 0` is `weights.getD (r-1) 0`
(out-of-range reads give `0`; `|| 0` maps `0` to itself). -/
def tierRun (playersIdx : List Nat) (players : List Player) (z y : ℚ)
    (weights : List ℚ) (giveYToTopHalf : Bool) (fixedYTopK : Option Nat)
    (noise : List ℚ) : TierResult :=
  let N := playersIdx.length
  let perf := (List.range N).map (fun j =>
    (players.getD (playersIdx.getD j 0) defaultPlayer).skill + noise.getD j 0)
  let orderRanks := rankBy perf
  let order := orderRanks.1
  let ranks := orderRanks.2
  let fees := playersIdx.map (fun pi => (players.getD pi defaultPlayer).chips / z)
  let pool := fees.sum
  let sharePool := ranks.map (fun r => (weights.getD (r - 1) 0) * pool)
  let fixedY := ranks.map (fun r => fixedBonus N y giveYToTopHalf fixedYTopK r)
  let payouts := List.zipWith (fun a b => a + b) sharePool fixedY
  let deltas := List.zipWith (fun a b => a - b) payouts fees
  ⟨order, ranks, deltas, pool, fees, payouts, sharePool, fixedY,
    applyDeltas players playersIdx deltas⟩

/-- Source `FIXED_SIZES`. -/
structure Sizes where
  population : Nat
  cupSlots : Nat
  reg : Nat
  world : Nat
  ourWorldQuota : Nat

def FIXED_SIZES : Sizes := ⟨256, 128, 32, 48, 12⟩

/-- Source `DEFAULT_PARAMS` shape (the fields the modelled operations read;
the S15 fee/bonus parameters are analogous and unused by the claims). -/
structure Params where
  x0 : ℚ
  z_cup : ℚ
  y_cup : ℚ
  z_reg : ℚ
  y_reg : ℚ
  z_world : ℚ
  y_world : ℚ
  decay_pct : ℚ
deriving DecidableEq

/-- Source `median(arr)`: stable ascending sort, middle element for odd
length, mean of the two middles for even length. -/
def median (arr : List ℚ) : ℚ :=
  let a := arr.insertionSort (fun x y => x ≤ y)
  let m := a.length / 2
  if a.length % 2 = 1 then a.getD m 0 else (a.getD (m - 1) 0 + a.getD m 0) / 2

/-- History records.  `runWorlds` and the modelled operations only read the
`regional` payload (`idxs`, `ranks`); the remaining settlement record types
(`cup`, `tpc`, `s15_cup`, `s15_regional`) are distinguished solely by their
type tag, kept here as `otherEvent`. -/
inductive HistEvent where
  | regional (idxs ranks : List Nat)
  | worlds (ourLocal : List Nat) (allIdxs : List Int) (deltas : List ℚ) (pool : ℚ)
  | decay (factor pct : ℚ)
  | otherEvent (tag : String)
deriving DecidableEq

/-- The React component's mutable state: configuration, roster, stage tag,
append-only history. -/
structure SimState where
  params : Params
  players : List Player
  stage : String
  history : List HistEvent
deriving DecidableEq

/-- Source `decayAll`: clamp the configured percentage to `[0, 100]`, then
replace every balance by `max 0 (chips * (1 - pct/100))` and append a decay
record.  (The JS `Number(...) || 0` NaN-guard has no rational counterpart.) -/
def decayAll (st : SimState) : SimState :=
  let pct := max 0 (min 100 st.params.decay_pct)
  let factor := 1 - pct / 100
  { st with
    players := st.players.map (fun p => { p with chips := max 0 (p.chips * factor) }),
    stage := "decay",
    history := st.history ++ [HistEvent.decay factor pct] }

/-- Source `[...history].reverse().find((e) => e.type === "regional")`. -/
def findLastRegional (history : List HistEvent) : Option (List Nat × List Nat) :=
  history.reverse.findSome? (fun e => match e with
    | .regional idxs ranks => some (idxs, ranks)
    | _ => none)

/-- The stable descending sort of participant slots by point score used by
`runWorlds` (`regPoints.map(...).sort((a, b) => b.v - a.v).map(o => o.j)`). -/
def worldsOrder (regPoints : List ℚ) : List Nat :=
  (regPoints.enum.insertionSort perfDescOrder).map (fun x => x.1)

/-- Qualifier selection of `runWorlds`: convert each Regional rank to the
point score `weight[rank-1] * 100`, order slots by descending score, keep the
first `ourWorldQuota = 12`, and map slots back to global indices. -/
def worldsQualifiers (regIdxs regRanks : List Nat) : List Nat :=
  let wReg := weightsReg regIdxs.length
  let regPoints := regRanks.map (fun r => (wReg.getD (r - 1) 0) * 100)
  ((worldsOrder regPoints).take FIXED_SIZES.ourWorldQuota).map (fun j => regIdxs.getD j 0)

/-- The 48-entrant Worlds field (`fakePlayers`): the qualifiers with their
global index as id, followed by `extN` synthetic entrants with id `-1`,
skill `medianSkill + noise()*0.8`, and balance exactly `medianChips`. -/
def worldsField (players : List Player) (regIdxs regRanks : List Nat)
    (extNoise : List ℚ) : List Player :=
  let ourLocal := worldsQualifiers regIdxs regRanks
  let extN := FIXED_SIZES.world - ourLocal.length
  let medSkill := median (ourLocal.map (fun pi => (players.getD pi defaultPlayer).skill))
  let medChips := median (ourLocal.map (fun pi => (players.getD pi defaultPlayer).chips))
  ourLocal.map (fun (pi : Nat) =>
      Player.mk (Int.ofNat pi) (players.getD pi defaultPlayer).skill
        (players.getD pi defaultPlayer).chips)
    ++ (List.range extN).map (fun i =>
      Player.mk (-1) (medSkill + extNoise.getD i 0 * (8/10)) medChips)

/-- Source `next[gid].chips = fp.chips` (write one balance back). -/
def setChips (ps : List Player) (i : Nat) (c : ℚ) : List Player :=
  match ps.get? i with
  | some p => ps.set i { p with chips := c }
  | none => ps

/-- Source `runWorlds`: refuse (no-op) without a prior Regional; otherwise
select the 12 qualifiers by point score, fill the field to 48 with synthetic
entrants, settle with the Worlds schedule (`giveYToTopHalf = false`), and
persist only the balances of entrants with a real global index
(`gid >= 0`). -/
def runWorlds (st : SimState) (extNoise perfNoise : List ℚ) : SimState :=
  match findLastRegional st.history with
  | none => st
  | some (regIdxs, regRanks) =>
    let ourLocal := worldsQualifiers regIdxs regRanks
    let extN := FIXED_SIZES.world - ourLocal.length
    let allIdxs : List Int :=
      ourLocal.map (fun (pi : Nat) => Int.ofNat pi) ++ List.replicate extN (-1)
    let fakePlayers := worldsField st.players regIdxs regRanks extNoise
    let N := allIdxs.length
    let w := weightsWorld N
    let res := tierRun (List.range N) fakePlayers st.params.z_world st.params.y_world
      w false none perfNoise
    let next := (List.range N).foldl (fun ps k =>
      match allIdxs.getD k 0 with
      | Int.ofNat gid => setChips ps gid ((res.playersAfter.getD k defaultPlayer).chips)
      | Int.negSucc _ => ps) st.players
    { st with
      players := next
      stage := "worlds"
      history := st.history ++ [HistEvent.worlds ourLocal allIdxs res.deltas res.pool] }

/-! Ranking facts: the `order` produced by `rankBy` is a permutation of the
slot indices, sorted descending by value, and `ranks` is a permutation of
`1..N`. -/

theorem rankBy_order_perm (values : List ℚ) :
    (rankBy values).1.Perm (List.range values.length) := by
  have h := (List.perm_insertionSort perfDescOrder values.enum).map Prod.fst
  rw [List.enum_map_fst] at h
  exact h

theorem rankBy_order_length (values : List ℚ) :
    (rankBy values).1.length = values.length :=
  (rankBy_order_perm values).length_eq.trans (List.length_range _)

theorem rankBy_order_nodup (values : List ℚ) : (rankBy values).1.Nodup :=
  (rankBy_order_perm values).nodup_iff.mpr (List.nodup_range _)

theorem mem_rankBy_order {values : List ℚ} {pid : Nat} (h : pid < values.length) :
    pid ∈ (rankBy values).1 :=
  (rankBy_order_perm values).mem_iff.mpr (List.mem_range.mpr h)

theorem rankBy_ranks_eq (values : List ℚ) :
    (rankBy values).2
      = (List.range values.length).map (fun pid => (rankBy values).1.indexOf pid + 1) :=
  rfl

theorem rankBy_ranks_length (values : List ℚ) :
    (rankBy values).2.length = values.length := by
  rw [rankBy_ranks_eq, List.length_map, List.length_range]

theorem rankBy_slots_perm (values : List ℚ) :
    (List.range values.length).map (fun pid => (rankBy values).1.indexOf pid)
      |>.Perm (List.range values.length) := by
  have hnd : ((List.range values.length).map
      (fun pid => (rankBy values).1.indexOf pid)).Nodup := by
    refine List.Nodup.map_on ?_ (List.nodup_range _)
    intro x hx y hy hxy
    exact (List.indexOf_inj (mem_rankBy_order (List.mem_range.mp hx))
      (mem_rankBy_order (List.mem_range.mp hy))).mp hxy
  have hsub : ((List.range values.length).map
      (fun pid => (rankBy values).1.indexOf pid)) ⊆ List.range values.length := by
    intro x hx
    rcases List.mem_map.mp hx with ⟨pid, hpid, rfl⟩
    have hlt : (rankBy values).1.indexOf pid < (rankBy values).1.length :=
      List.indexOf_lt_length.mpr (mem_rankBy_order (List.mem_range.mp hpid))
    exact List.mem_range.mpr (by rwa [rankBy_order_length] at hlt)
  exact (List.subperm_of_subset hnd hsub).perm_of_length_le (by simp)

theorem rankBy_ranks_perm (values : List ℚ) :
    (rankBy values).2.Perm ((List.range values.length).map (fun k => k + 1)) := by
  rw [rankBy_ranks_eq]
  have h := (rankBy_slots_perm values).map (fun k => k + 1)
  simpa [List.map_map, Function.comp_def] using h

theorem rankBy_sorted (values : List ℚ) :
    (values.enum.insertionSort perfDescOrder).Pairwise perfDescOrder :=
  List.sorted_insertionSort perfDescOrder values.enum

theorem sorted_mem_val {values : List ℚ} {a : Nat × ℚ}
    (h : a ∈ values.enum.insertionSort perfDescOrder) : values.getD a.1 0 = a.2 := by
  have hm : a ∈ values.enum := (List.mem_insertionSort _).mp h
  have h2 := List.mem_enum_iff_getElem?.mp hm
  simp [List.getD_eq_getElem?_getD, h2]

/-- C8: for every list of N performance values, the ranks returned by
`rankBy` are exactly a permutation of `1..N` (a bijection between slots and
ranks), and the slot holding rank 1 carries a maximal performance value
(ties resolved by the stable sort's draw order). -/
theorem rankBy_ranks_bijection (values : List ℚ) :
    (rankBy values).2.Perm ((List.range values.length).map (fun k => k + 1)) ∧
    (∀ i, i < values.length → (rankBy values).2.getD i 0 = 1 →
      ∀ j, j < values.length → values.getD j 0 ≤ values.getD i 0) := by
  refine ⟨rankBy_ranks_perm values, ?_⟩
  intro i hi h1 j hj
  have hgi : (rankBy values).2.getD i 0 = (rankBy values).1.indexOf i + 1 := by
    rw [rankBy_ranks_eq]
    rw [List.getD_eq_getElem _ _ (by simpa using hi)]
    simp
  rw [hgi] at h1
  have hidx : (rankBy values).1.indexOf i = 0 := by omega
  have hmem : i ∈ (rankBy values).1 := mem_rankBy_order hi
  have hlt : (rankBy values).1.indexOf i < (rankBy values).1.length :=
    List.indexOf_lt_length.mpr hmem
  have h0 := List.getElem_indexOf hlt
  have hslen : (values.enum.insertionSort perfDescOrder).length = values.length := by
    rw [List.length_insertionSort, List.enum_length]
  have h0lt : 0 < (values.enum.insertionSort perfDescOrder).length := by
    rw [hslen]; omega
  have hlen0 : 0 < (rankBy values).1.length := by
    rw [rankBy_order_length]; omega
  have hfst0 : (values.enum.insertionSort perfDescOrder)[0].1 = i := by
    have h00 : (rankBy values).1[0] = i := by
      simpa [hidx] using h0
    simpa [rankBy, List.getElem_map] using h00
  have hvi : values.getD i 0 = (values.enum.insertionSort perfDescOrder)[0].2 := by
    rw [← hfst0]
    exact sorted_mem_val (List.getElem_mem h0lt)
  rcases List.mem_iff_getElem.mp (mem_rankBy_order hj) with ⟨kj, hkjlt, hkj⟩
  have hkjs : kj < (values.enum.insertionSort perfDescOrder).length := by
    rw [hslen]; rw [rankBy_order_length] at hkjlt; exact hkjlt
  have hfstk : (values.enum.insertionSort perfDescOrder)[kj].1 = j := by
    simpa [rankBy, List.getElem_map] using hkj
  have hvj : values.getD j 0 = (values.enum.insertionSort perfDescOrder)[kj].2 := by
    rw [← hfstk]
    exact sorted_mem_val (List.getElem_mem hkjs)
  rw [hvi, hvj]
  rcases Nat.eq_zero_or_pos kj with hk0 | hkpos
  · subst hk0; exact le_refl _
  · exact List.pairwise_iff_getElem.mp (rankBy_sorted values) 0 kj h0lt hkjs hkpos

/-! Settlement accounting: the conservation identity behind C1 and the
bonus-count identities behind C4/C10. -/

/-- Bonus-eligibility predicate read off the branch structure of
`fixedBonus`: explicit top-K cutoff when one is supplied and
`giveYToTopHalf` is set; top half when `giveYToTopHalf` is set without a
cutoff; every rank otherwise. -/
def eligibleRank (N : Nat) (giveYToTopHalf : Bool) (fixedYTopK : Option Nat)
    (r : Nat) : Bool :=
  if giveYToTopHalf then
    match fixedYTopK with
    | some K => decide (r ≤ K)
    | none => decide (r ≤ (N + 1) / 2)
  else true

theorem fixedBonus_eq_ite (N : Nat) (y : ℚ) (give : Bool) (topK : Option Nat) (r : Nat) :
    fixedBonus N y give topK r = if eligibleRank N give topK r then y else 0 := by
  unfold fixedBonus eligibleRank
  cases give <;> cases topK <;> simp

theorem sum_zipWith_sub (a b : List ℚ) (h : a.length = b.length) :
    (List.zipWith (fun x y => x - y) a b).sum = a.sum - b.sum := by
  induction a generalizing b with
  | nil =>
    cases b with
    | nil => simp
    | cons y ys => simp at h
  | cons x xs ih =>
    cases b with
    | nil => simp at h
    | cons y ys =>
      simp only [List.zipWith_cons_cons, List.sum_cons, ih ys (by simpa using h)]
      ring

theorem sum_zipWith_add (a b : List ℚ) (h : a.length = b.length) :
    (List.zipWith (fun x y => x + y) a b).sum = a.sum + b.sum := by
  induction a generalizing b with
  | nil =>
    cases b with
    | nil => simp
    | cons y ys => simp at h
  | cons x xs ih =>
    cases b with
    | nil => simp at h
    | cons y ys =>
      simp only [List.zipWith_cons_cons, List.sum_cons, ih ys (by simpa using h)]
      ring

theorem map_getD_range (l : List ℚ) :
    (List.range l.length).map (fun i => l.getD i 0) = l := by
  induction l with
  | nil => simp
  | cons x xs ih =>
    rw [List.length_cons, List.range_succ_eq_map]
    simp only [List.map_cons, List.getD_cons_zero, List.map_map, Function.comp_def,
      List.getD_cons_succ]
    rw [ih]

theorem sum_map_ite_count (l : List Nat) (P : Nat → Bool) (y : ℚ) :
    (l.map (fun x => if P x then y else 0)).sum = y * (l.countP P : ℚ) := by
  induction l with
  | nil => simp
  | cons a l ih =>
    by_cases h : P a <;>
      simp only [List.map_cons, List.sum_cons, List.countP_cons, h, if_true, if_false,
        ih, decide_True, decide_False] <;>
      push_cast <;> ring

theorem sum_map_mul_const (l : List Nat) (f : Nat → ℚ) (c : ℚ) :
    (l.map (fun x => f x * c)).sum = (l.map f).sum * c := by
  induction l with
  | nil => simp
  | cons a l ih => simp [ih]; ring

/-- Summing any function of the ranks over the participant slots is summing
it over the ranks `1..N` (the ranks are a permutation of `1..N`). -/
theorem rankBy_map_sum (values : List ℚ) (f : Nat → ℚ) :
    ((rankBy values).2.map f).sum
      = ((List.range values.length).map (fun r0 => f (r0 + 1))).sum := by
  have h := ((rankBy_ranks_perm values).map f).sum_eq
  rw [h, List.map_map]
  rfl

/-- Accounting core of `tierRun`: with a full-length weight vector of total
mass 1, pool shares cancel against fees and the delta sum reduces to
`y * #eligible ranks`. -/
theorem settle_sum_core (N : Nat) (values fees weights : List ℚ) (y : ℚ)
    (give : Bool) (topK : Option Nat) (hv : values.length = N)
    (hf : fees.length = N) (hw : weights.length = N) (hwsum : weights.sum = 1) :
    (List.zipWith (fun a b => a - b)
      (List.zipWith (fun a b => a + b)
        ((rankBy values).2.map (fun r => weights.getD (r - 1) 0 * fees.sum))
        ((rankBy values).2.map (fun r => fixedBonus N y give topK r)))
      fees).sum
    = y * (((List.range N).countP
        (fun r0 => eligibleRank N give topK (r0 + 1))) : ℚ) := by
  have hrl : (rankBy values).2.length = N := (rankBy_ranks_length values).trans hv
  have hshare : ((rankBy values).2.map (fun r => weights.getD (r - 1) 0 * fees.sum)).sum
      = fees.sum := by
    rw [rankBy_map_sum, hv]
    simp only [Nat.add_sub_cancel]
    rw [sum_map_mul_const, ← hw, map_getD_range, hwsum, one_mul]
  have hfix : ((rankBy values).2.map (fun r => fixedBonus N y give topK r)).sum
      = y * (((List.range N).countP
          (fun r0 => eligibleRank N give topK (r0 + 1))) : ℚ) := by
    rw [rankBy_map_sum, hv]
    simp only [fixedBonus_eq_ite]
    exact sum_map_ite_count _ _ _
  rw [sum_zipWith_sub _ _ (by simp [hrl, hf]), sum_zipWith_add _ _ (by simp [hrl]),
    hshare, hfix]
  ring

/-- C1: for every settlement call with participant count N, fee divisor
z > 0, fixed bonus y, a weight vector of length N summing to 1, and any
eligibility policy, the returned per-participant net deltas sum exactly to
`y * #bonus-eligible ranks` — fees and pool shares cancel — independent of
N, z, the weights, the roster, and the noise draws. -/
theorem tierRun_delta_conservation (playersIdx : List Nat) (players : List Player)
    (z y : ℚ) (weights : List ℚ) (giveYToTopHalf : Bool) (fixedYTopK : Option Nat)
    (noise : List ℚ) (hz : 0 < z) (hlen : weights.length = playersIdx.length)
    (hsum : weights.sum = 1) :
    (tierRun playersIdx players z y weights giveYToTopHalf fixedYTopK noise).deltas.sum
      = y * (((List.range playersIdx.length).countP
          (fun r0 => eligibleRank playersIdx.length giveYToTopHalf fixedYTopK
            (r0 + 1))) : ℚ) :=
  settle_sum_core playersIdx.length
    ((List.range playersIdx.length).map (fun j =>
      (players.getD (playersIdx.getD j 0) defaultPlayer).skill + noise.getD j 0))
    (playersIdx.map (fun pi => (players.getD pi defaultPlayer).chips / z))
    weights y giveYToTopHalf fixedYTopK (by simp) (by simp) hlen hsum

/-- Witness for C1 at a concrete call: two participants, z = 2, y = 5,
weights `[3/4, 1/4]`, top-half policy (1 eligible rank). -/
theorem tierRun_delta_conservation_witness :
    0 < (2 : ℚ) ∧ ([(3/4 : ℚ), 1/4].length = [0, 1].length) ∧
      ([(3/4 : ℚ), 1/4].sum = 1) ∧
      (tierRun [0, 1] [⟨0, 0, 100⟩, ⟨1, 0, 100⟩] 2 5 [3/4, 1/4] true none
        [1, 0]).deltas.sum
        = 5 * (((List.range ([0, 1] : List Nat).length).countP
            (fun r0 => eligibleRank ([0, 1] : List Nat).length true none (r0 + 1))) : ℚ) :=
  ⟨by norm_num, by decide, by norm_num,
    tierRun_delta_conservation [0, 1] [⟨0, 0, 100⟩, ⟨1, 0, 100⟩] 2 5 [3/4, 1/4]
      true none [1, 0] (by norm_num) (by decide) (by norm_num)⟩

theorem countP_range_succ_le (m n : Nat) :
    (List.range n).countP (fun i => decide (i + 1 ≤ m)) = min m n := by
  induction n with
  | zero => simp
  | succ n ih =>
    rw [List.range_succ, List.countP_append, ih]
    by_cases h : n + 1 ≤ m <;> simp [List.countP_cons, h] <;> omega

/-- Counting the strictly positive recorded bonuses counts the eligible
ranks, because the ranks are a permutation of `1..N`. -/
theorem rank_count_core (N : Nat) (values : List ℚ) (hv : values.length = N)
    (y : ℚ) (give : Bool) (topK : Option Nat) (hy : 0 < y) :
    ((rankBy values).2.map (fun r => fixedBonus N y give topK r)).countP
        (fun v => decide (0 < v))
      = (List.range N).countP (fun r0 => eligibleRank N give topK (r0 + 1)) := by
  rw [List.countP_map]
  have h1 : ∀ r ∈ (rankBy values).2,
      ((fun v => decide (0 < v)) ∘ fun r => fixedBonus N y give topK r) r
        = eligibleRank N give topK r := by
    intro r _
    simp only [Function.comp_apply, fixedBonus_eq_ite]
    by_cases h : eligibleRank N give topK r <;> simp [h, hy]
  rw [List.countP_congr (fun x hx => by rw [h1 x hx]),
    (rankBy_ranks_perm values).countP_eq, List.countP_map, hv]
  rfl

/-- C4: exactly the eligible ranks receive the fixed bonus `y`, and (for
`y > 0`) the number of participants with a strictly positive recorded bonus
is `ceil(N/2)` under top-half, `N` under all-ranks, and `K` under an
explicit top-K cutoff with `K ≤ N`. -/
theorem tierRun_bonus_eligibility (playersIdx : List Nat) (players : List Player)
    (z y : ℚ) (weights : List ℚ) (giveYToTopHalf : Bool) (fixedYTopK : Option Nat)
    (noise : List ℚ) (hy : 0 < y) :
    (∀ j, j < playersIdx.length →
      (tierRun playersIdx players z y weights giveYToTopHalf fixedYTopK noise).fixedY.getD j 0
        = if eligibleRank playersIdx.length giveYToTopHalf fixedYTopK
            ((tierRun playersIdx players z y weights giveYToTopHalf fixedYTopK
              noise).ranks.getD j 0) then y else 0) ∧
    (giveYToTopHalf = true → fixedYTopK = none →
      (tierRun playersIdx players z y weights giveYToTopHalf fixedYTopK noise).fixedY.countP
          (fun v => decide (0 < v)) = (playersIdx.length + 1) / 2) ∧
    (giveYToTopHalf = false →
      (tierRun playersIdx players z y weights giveYToTopHalf fixedYTopK noise).fixedY.countP
          (fun v => decide (0 < v)) = playersIdx.length) ∧
    (∀ K, giveYToTopHalf = true → fixedYTopK = some K → K ≤ playersIdx.length →
      (tierRun playersIdx players z y weights giveYToTopHalf fixedYTopK noise).fixedY.countP
          (fun v => decide (0 < v)) = K) := by
  set N := playersIdx.length with hN
  set values := (List.range N).map (fun j =>
    (players.getD (playersIdx.getD j 0) defaultPlayer).skill + noise.getD j 0) with hvalues
  have hv : values.length = N := by simp [hvalues]
  have hfY : (tierRun playersIdx players z y weights giveYToTopHalf fixedYTopK noise).fixedY
      = (rankBy values).2.map (fun r => fixedBonus N y giveYToTopHalf fixedYTopK r) := rfl
  have hrk : (tierRun playersIdx players z y weights giveYToTopHalf fixedYTopK noise).ranks
      = (rankBy values).2 := rfl
  have hcount := rank_count_core N values hv y giveYToTopHalf fixedYTopK hy
  refine ⟨?_, ?_, ?_, ?_⟩
  · intro j hj
    have hjr : j < (rankBy values).2.length := by
      rw [rankBy_ranks_length, hv]; exact hj
    rw [hfY, hrk, List.getD_eq_getElem _ _ (by simpa using hjr), List.getElem_map,
      ← List.getD_eq_getElem _ _ hjr, fixedBonus_eq_ite]
  · intro hg hk
    subst hg; subst hk
    rw [hfY, hcount]
    have : ∀ r0 ∈ List.range N,
        (eligibleRank N true none (r0 + 1)) = decide (r0 + 1 ≤ (N + 1) / 2) := by
      intro r0 _; rfl
    rw [List.countP_congr (fun x hx => by rw [this x hx]), countP_range_succ_le]
    omega
  · intro hg
    subst hg
    rw [hfY, hcount]
    have : ∀ r0 ∈ List.range N, (eligibleRank N false fixedYTopK (r0 + 1)) = true := by
      intro r0 _; rfl
    rw [List.countP_congr (fun x hx => by rw [this x hx])]
    simp
  · intro K hg hk hKN
    subst hg; subst hk
    rw [hfY, hcount]
    have : ∀ r0 ∈ List.range N,
        (eligibleRank N true (some K) (r0 + 1)) = decide (r0 + 1 ≤ K) := by
      intro r0 _; rfl
    rw [List.countP_congr (fun x hx => by rw [this x hx]), countP_range_succ_le]
    omega

/-- Witness for C4 at a concrete call: N = 4, y = 5, top-half policy gives
`ceil(4/2) = 2` positive bonuses. -/
theorem tierRun_bonus_eligibility_witness :
    0 < (5 : ℚ) ∧
      (tierRun [0, 1, 2, 3] [⟨0, 0, 80⟩, ⟨1, 0, 90⟩, ⟨2, 0, 100⟩, ⟨3, 0, 110⟩] 4 5
        [1/2, 1/4, 1/8, 1/8] true none [0, 1, 2, 3]).fixedY.countP
        (fun v => decide (0 < v)) = ([0, 1, 2, 3] : List Nat).length.succ / 2 :=
  ⟨by norm_num,
    ((tierRun_bonus_eligibility [0, 1, 2, 3]
      [⟨0, 0, 80⟩, ⟨1, 0, 90⟩, ⟨2, 0, 100⟩, ⟨3, 0, 110⟩] 4 5 [1/2, 1/4, 1/8, 1/8]
      true none [0, 1, 2, 3] (by norm_num)).2.1 rfl rfl)⟩

/-- C10 (the `part_001` settlement variant): the explicit top-K cutoff acts
only when `giveYToTopHalf` is set.  With `giveYToTopHalf = false` every rank
receives `y` whatever `fixedYTopK` holds; with `giveYToTopHalf = true` and
`fixedYTopK = K`, a participant receives `y` exactly when its rank is at most
`K` — the cutoff replaces the `ceil(N/2)` top-half rule rather than
intersecting with it. -/
theorem tierRun_topK_replaces_topHalf (playersIdx : List Nat) (players : List Player)
    (z y : ℚ) (weights : List ℚ) (fixedYTopK : Option Nat) (noise : List ℚ) :
    ((tierRun playersIdx players z y weights false fixedYTopK noise).fixedY
      = List.replicate playersIdx.length y) ∧
    (∀ K, y ≠ 0 → ∀ j, j < playersIdx.length →
      ((tierRun playersIdx players z y weights true (some K) noise).fixedY.getD j 0 = y
        ↔ (tierRun playersIdx players z y weights true (some K) noise).ranks.getD j 0
            ≤ K)) := by
  set N := playersIdx.length with hN
  set values := (List.range N).map (fun j =>
    (players.getD (playersIdx.getD j 0) defaultPlayer).skill + noise.getD j 0) with hvalues
  have hv : values.length = N := by simp [hvalues]
  constructor
  · have hfY : (tierRun playersIdx players z y weights false fixedYTopK noise).fixedY
        = (rankBy values).2.map (fun r => fixedBonus N y false fixedYTopK r) := rfl
    rw [hfY]
    have : (rankBy values).2.map (fun r => fixedBonus N y false fixedYTopK r)
        = (rankBy values).2.map (fun _ => y) := rfl
    rw [this, List.map_const']
    rw [rankBy_ranks_length, hv]
  · intro K hy0 j hj
    have hfY : (tierRun playersIdx players z y weights true (some K) noise).fixedY
        = (rankBy values).2.map (fun r => fixedBonus N y true (some K) r) := rfl
    have hrk : (tierRun playersIdx players z y weights true (some K) noise).ranks
        = (rankBy values).2 := rfl
    have hjr : j < (rankBy values).2.length := by
      rw [rankBy_ranks_length, hv]; exact hj
    rw [hfY, hrk, List.getD_eq_getElem _ _ (by simpa using hjr), List.getElem_map,
      ← List.getD_eq_getElem _ _ hjr]
    show (if (rankBy values).2.getD j 0 ≤ K then y else 0) = y ↔ _
    by_cases h : (rankBy values).2.getD j 0 ≤ K
    · rw [if_pos h]
      exact iff_of_true rfl h
    · rw [if_neg h]
      exact iff_of_false (fun h0 => hy0 h0.symm) h

/-- Witness for C10's top-K direction at a concrete call (y = 7 ≠ 0, K = 1,
slot 0 holds rank 1). -/
theorem tierRun_topK_replaces_topHalf_witness :
    (7 : ℚ) ≠ 0 ∧
      ((tierRun [0, 1] [⟨0, 0, 100⟩, ⟨1, 0, 100⟩] 2 7 [3/4, 1/4] true (some 1)
          [1, 0]).fixedY.getD 0 0 = 7
        ↔ (tierRun [0, 1] [⟨0, 0, 100⟩, ⟨1, 0, 100⟩] 2 7 [3/4, 1/4] true (some 1)
          [1, 0]).ranks.getD 0 0 ≤ 1) :=
  ⟨by norm_num,
    (tierRun_topK_replaces_topHalf [0, 1] [⟨0, 0, 100⟩, ⟨1, 0, 100⟩] 2 7 [3/4, 1/4]
      (some 1) [1, 0]).2 1 (by norm_num) 0 (by decide)⟩

theorem getD_append_replicate_zero (w : List ℚ) (k i : Nat) :
    (w ++ List.replicate k (0 : ℚ)).getD i 0 = w.getD i 0 := by
  rcases lt_or_ge i w.length with h | h
  · rw [List.getD_append _ _ _ _ h]
  · rw [List.getD_append_right _ _ _ _ h, List.getD_eq_default _ _ h]
    rcases lt_or_ge (i - w.length) k with h2 | h2
    · rw [List.getD_eq_getElem _ _ (by simpa using h2), List.getElem_replicate]
    · rw [List.getD_eq_default]
      simpa using h2

/-- C9: every settlement call is total on its edge cases — the five result
arrays always have length exactly N; a call with zero participants is a
no-op returning empty arrays, pool 0, and the untouched roster; and a weight
vector shorter than N behaves exactly as its zero-extension, i.e. missing
ranks are read as weight 0 (no out-of-bounds access). -/
theorem tierRun_total_edge_cases :
    (∀ (playersIdx : List Nat) (players : List Player) (z y : ℚ) (weights : List ℚ)
      (give : Bool) (topK : Option Nat) (noise : List ℚ),
      (tierRun playersIdx players z y weights give topK noise).fees.length
          = playersIdx.length ∧
      (tierRun playersIdx players z y weights give topK noise).fixedY.length
          = playersIdx.length ∧
      (tierRun playersIdx players z y weights give topK noise).sharePool.length
          = playersIdx.length ∧
      (tierRun playersIdx players z y weights give topK noise).payouts.length
          = playersIdx.length ∧
      (tierRun playersIdx players z y weights give topK noise).deltas.length
          = playersIdx.length) ∧
    (∀ (players : List Player) (z y : ℚ) (weights : List ℚ) (give : Bool)
      (topK : Option Nat) (noise : List ℚ),
      tierRun [] players z y weights give topK noise
        = ⟨[], [], [], 0, [], [], [], [], players⟩) ∧
    (∀ (playersIdx : List Nat) (players : List Player) (z y : ℚ) (weights : List ℚ)
      (give : Bool) (topK : Option Nat) (noise : List ℚ) (pad : Nat),
      tierRun playersIdx players z y (weights ++ List.replicate pad 0) give topK noise
        = tierRun playersIdx players z y weights give topK noise) := by
  refine ⟨?_, ?_, ?_⟩
  · intro playersIdx players z y weights give topK noise
    refine ⟨by simp [tierRun], ?_, ?_, ?_, ?_⟩ <;>
      simp [tierRun, rankBy_ranks_length]
  · intro players z y weights give topK noise
    rfl
  · intro playersIdx players z y weights give topK noise pad
    simp only [tierRun, getD_append_replicate_zero]

theorem max_zero_mul_assoc (c a b : ℚ) (hb : 0 ≤ b) :
    max 0 (max 0 (c * a) * b) = max 0 (c * a * b) := by
  rcases le_total (c * a) 0 with h | h
  · rw [max_eq_left h, zero_mul]
    have hle : c * a * b ≤ 0 := mul_nonpos_of_nonpos_of_nonneg h hb
    rw [max_eq_left hle, max_self]
  · rw [max_eq_right h]

/-- C7: the decay operation clamps the percentage to `[0, 100]` and maps
every balance to `max 0 (old * (1 - pct/100))`; and two decays of `p1` then
`p2` (both already in `[0, 100]`) act on the roster exactly like one decay at
combined percentage `100 * (1 - (1 - p1/100) * (1 - p2/100))`. -/
theorem decayAll_formula_and_composition :
    (∀ (st : SimState) (i : Nat),
      ((decayAll st).players.getD i defaultPlayer).chips
        = max 0 ((st.players.getD i defaultPlayer).chips
            * (1 - (max 0 (min 100 st.params.decay_pct)) / 100))) ∧
    (∀ (pl : List Player) (P : Params) (sg : String) (hist : List HistEvent)
      (p1 p2 : ℚ), 0 ≤ p1 → p1 ≤ 100 → 0 ≤ p2 → p2 ≤ 100 →
      (decayAll ⟨{ P with decay_pct := p2 },
        (decayAll ⟨{ P with decay_pct := p1 }, pl, sg, hist⟩).players, sg, hist⟩).players
      = (decayAll ⟨{ P with decay_pct := 100 * (1 - (1 - p1/100) * (1 - p2/100)) },
          pl, sg, hist⟩).players) := by
  constructor
  · intro st i
    show ((st.players.map _).getD i defaultPlayer).chips = _
    rcases lt_or_ge i st.players.length with h | h
    · rw [List.getD_eq_getElem _ _ (by simpa using h), List.getElem_map,
        ← List.getD_eq_getElem _ _ h]
    · rw [List.getD_eq_default _ _ (by simpa using h), List.getD_eq_default _ _ h]
      show (0 : ℚ) = max 0 (0 * _)
      rw [zero_mul, max_self]
  · intro pl P sg hist p1 p2 hp1a hp1b hp2a hp2b
    have hc1 : max 0 (min 100 p1) = p1 := by
      rw [min_eq_right hp1b, max_eq_right hp1a]
    have hc2 : max 0 (min 100 p2) = p2 := by
      rw [min_eq_right hp2b, max_eq_right hp2a]
    have hqa : 0 ≤ 100 * (1 - (1 - p1/100) * (1 - p2/100)) := by nlinarith
    have hqb : 100 * (1 - (1 - p1/100) * (1 - p2/100)) ≤ 100 := by nlinarith
    have hcq : max 0 (min 100 (100 * (1 - (1 - p1/100) * (1 - p2/100))))
        = 100 * (1 - (1 - p1/100) * (1 - p2/100)) := by
      rw [min_eq_right hqb, max_eq_right hqa]
    have hD : ∀ (st : SimState), (decayAll st).players
        = st.players.map (fun p => { p with chips := max 0 (p.chips
            * (1 - (max 0 (min 100 st.params.decay_pct)) / 100)) }) := fun _ => rfl
    rw [hD, hD, hD, List.map_map]
    refine List.map_congr_left ?_
    intro p _
    simp only [Function.comp_apply, hc1, hc2, hcq]
    have hfac : 1 - (100 * (1 - (1 - p1/100) * (1 - p2/100))) / 100
        = (1 - p1/100) * (1 - p2/100) := by ring
    have hb2 : 0 ≤ 1 - p2/100 := by linarith
    congr 1
    rw [hfac, ← mul_assoc, max_zero_mul_assoc _ _ _ hb2]

/-- Witness for C7's composition at p1 = 10, p2 = 20 on a one-player roster. -/
theorem decayAll_composition_witness :
    (0 : ℚ) ≤ 10 ∧ (10 : ℚ) ≤ 100 ∧ (0 : ℚ) ≤ 20 ∧ (20 : ℚ) ≤ 100 ∧
      (decayAll ⟨⟨100, 8, 50, 4, 100, 3, 400, 20⟩,
        (decayAll ⟨⟨100, 8, 50, 4, 100, 3, 400, 10⟩, [⟨0, 0, 100⟩], "idle", []⟩).players,
        "idle", []⟩).players
      = (decayAll ⟨⟨100, 8, 50, 4, 100, 3, 400,
          100 * (1 - (1 - 10/100) * (1 - 20/100))⟩, [⟨0, 0, 100⟩], "idle", []⟩).players :=
  ⟨by norm_num, by norm_num, by norm_num, by norm_num,
    decayAll_formula_and_composition.2 [⟨0, 0, 100⟩] ⟨100, 8, 50, 4, 100, 3, 400, 10⟩
      "idle" [] 10 20 (by norm_num) (by norm_num) (by norm_num) (by norm_num)⟩

/-- Type tag test `e.type === "regional"`. -/
def HistEvent.isRegional : HistEvent → Bool
  | .regional _ _ => true
  | _ => false

/-- C5: running Worlds when the history holds no Regional record is a
complete no-op — the returned state (roster, stage, history) is the input
state, untouched, whatever noise would have been drawn. -/
theorem runWorlds_no_regional_noop (st : SimState) (extNoise perfNoise : List ℚ)
    (h : ∀ e ∈ st.history, e.isRegional = false) :
    runWorlds st extNoise perfNoise = st := by
  have hfind : findLastRegional st.history = none := by
    rw [findLastRegional, List.findSome?_eq_none_iff]
    intro e he
    have he' := h e (List.mem_reverse.mp he)
    cases e <;> simp_all [HistEvent.isRegional]
  rw [runWorlds, hfind]

/-- Witness for C5 on a state whose history holds decay and cup records but
no Regional. -/
theorem runWorlds_no_regional_noop_witness :
    (∀ e ∈ ([HistEvent.decay (9/10) 10, HistEvent.otherEvent "cup"] : List HistEvent),
      e.isRegional = false) ∧
    runWorlds ⟨⟨100, 8, 50, 4, 100, 3, 400, 10⟩, [⟨0, 0, 100⟩], "idle",
        [HistEvent.decay (9/10) 10, HistEvent.otherEvent "cup"]⟩ [1, 2] [3, 4]
      = ⟨⟨100, 8, 50, 4, 100, 3, 400, 10⟩, [⟨0, 0, 100⟩], "idle",
        [HistEvent.decay (9/10) 10, HistEvent.otherEvent "cup"]⟩ :=
  ⟨by decide,
    runWorlds_no_regional_noop ⟨⟨100, 8, 50, 4, 100, 3, 400, 10⟩, [⟨0, 0, 100⟩], "idle",
      [HistEvent.decay (9/10) 10, HistEvent.otherEvent "cup"]⟩ [1, 2] [3, 4] (by decide)⟩

/-! Helper layer for C6: writeback facts and the sorted take/drop property. -/

theorem foldl_induction {α β : Type _} (f : β → α → β) (l : List α) (init : β)
    (P : β → Prop) (h0 : P init) (hstep : ∀ b, ∀ a ∈ l, P b → P (f b a)) :
    P (l.foldl f init) := by
  induction l generalizing init with
  | nil => exact h0
  | cons a l ih =>
    exact ih (f init a) (hstep init a (List.mem_cons_self _ _) h0)
      (fun b x hx hb => hstep b x (List.mem_cons_of_mem _ hx) hb)

theorem setChips_length (ps : List Player) (i : Nat) (c : ℚ) :
    (setChips ps i c).length = ps.length := by
  unfold setChips
  cases hg : ps.get? i with
  | none => rfl
  | some p => simp [List.length_set]

theorem setChips_getD_ne (ps : List Player) (i : Nat) (c : ℚ) (pid : Nat)
    (h : pid ≠ i) :
    (setChips ps i c).getD pid defaultPlayer = ps.getD pid defaultPlayer := by
  unfold setChips
  cases hg : ps.get? i with
  | none => rfl
  | some p =>
    rcases lt_or_ge pid ps.length with hl | hl
    · rw [List.getD_eq_getElem _ _ (by simpa [List.length_set] using hl),
        List.getElem_set_ne (Ne.symm h), ← List.getD_eq_getElem _ _ hl]
    · rw [List.getD_eq_default _ _ (by simpa [List.length_set] using hl),
        List.getD_eq_default _ _ hl]

theorem allIdxs_getD_cases (ourLocal : List Nat) (extN k : Nat)
    (hk : k < ourLocal.length + extN) :
    ((ourLocal.map (fun (pi : Nat) => Int.ofNat pi)
        ++ List.replicate extN (-1 : Int)).getD k 0
        = Int.ofNat (ourLocal.getD k 0) ∧ k < ourLocal.length)
    ∨ (ourLocal.map (fun (pi : Nat) => Int.ofNat pi)
        ++ List.replicate extN (-1 : Int)).getD k 0 = Int.negSucc 0 := by
  rcases lt_or_ge k ourLocal.length with h | h
  · left
    refine ⟨?_, h⟩
    rw [List.getD_append _ _ _ _ (by simpa using h),
      List.getD_eq_getElem _ _ (by simpa using h), List.getElem_map,
      ← List.getD_eq_getElem _ _ h]
  · right
    rw [List.getD_append_right _ _ _ _ (by simpa using h)]
    have h2 : k - (ourLocal.map (fun (pi : Nat) => Int.ofNat pi)).length < extN := by
      simp only [List.length_map]
      omega
    rw [List.getD_eq_getElem _ _ (by simpa using h2), List.getElem_replicate]
    rfl

theorem allIdxs_getD_lt (ourLocal : List Nat) (extN k : Nat)
    (hk : k < ourLocal.length) :
    (ourLocal.map (fun (pi : Nat) => Int.ofNat pi)
        ++ List.replicate extN (-1 : Int)).getD k 0
      = Int.ofNat (ourLocal.getD k 0) := by
  rw [List.getD_append _ _ _ _ (by simpa using hk),
    List.getD_eq_getElem _ _ (by simpa using hk), List.getElem_map,
    ← List.getD_eq_getElem _ _ hk]

theorem setChips_getD_self (ps : List Player) (i : Nat) (c : ℚ)
    (h : i < ps.length) :
    ((setChips ps i c).getD i defaultPlayer).chips = c := by
  unfold setChips
  cases hg : ps.get? i with
  | none =>
    have hs := List.get?_eq_get h
    rw [hg] at hs
    exact Option.noConfusion hs
  | some p =>
    rw [List.getD_eq_getElem _ _ (by simpa [List.length_set] using h),
      List.getElem_set_self]

theorem range_split_at (n N : Nat) (h : n < N) :
    List.range N = (List.range n ++ [n]) ++ (List.range N).drop (n + 1) := by
  conv_lhs => rw [← List.take_append_drop (n + 1) (List.range N)]
  rw [List.take_range, min_eq_left (by omega : n + 1 ≤ N), List.range_succ]

theorem range_drop_ne (n N : Nat) (h : n < N) :
    ∀ m ∈ (List.range N).drop (n + 1), m ≠ n := by
  intro m hm hEq
  have hnd : ((List.range n ++ [n]) ++ (List.range N).drop (n + 1)).Nodup := by
    rw [← range_split_at n N h]
    exact List.nodup_range _
  exact (List.nodup_append.mp hnd).2.2
    (List.mem_append_right _ (List.mem_singleton.mpr rfl)) (hEq ▸ hm)

theorem worldsWriteback_length (allIdxs : List Int) (cf : Nat → ℚ)
    (ks : List Nat) (ps : List Player) :
    (ks.foldl (fun ps k =>
      match allIdxs.getD k 0 with
      | Int.ofNat gid => setChips ps gid (cf k)
      | Int.negSucc _ => ps) ps).length = ps.length := by
  induction ks generalizing ps with
  | nil => rfl
  | cons a ks ih =>
    rw [List.foldl_cons, ih]
    cases h : allIdxs.getD a 0 with
    | ofNat g => exact setChips_length ps g (cf a)
    | negSucc m => rfl

theorem worldsWriteback_skip (allIdxs : List Int) (cf : Nat → ℚ) (gid : Nat)
    (ks : List Nat) (ps : List Player)
    (hne : ∀ k ∈ ks, allIdxs.getD k 0 ≠ Int.ofNat gid) :
    (ks.foldl (fun ps k =>
      match allIdxs.getD k 0 with
      | Int.ofNat g => setChips ps g (cf k)
      | Int.negSucc _ => ps) ps).getD gid defaultPlayer
      = ps.getD gid defaultPlayer := by
  induction ks generalizing ps with
  | nil => rfl
  | cons a ks ih =>
    rw [List.foldl_cons, ih _ (fun k hk => hne k (List.mem_cons_of_mem _ hk))]
    cases h : allIdxs.getD a 0 with
    | ofNat g =>
      have hga : gid ≠ g := fun hEq =>
        hne a (List.mem_cons_self a ks) (h.trans (congrArg Int.ofNat hEq.symm))
      exact setChips_getD_ne ps g (cf a) gid hga
    | negSucc m => rfl

/-- Elements kept by `take q` of the descending point sort dominate every
element left out of it. -/
theorem worldsOrder_take_dominates (pts : List ℚ) (q : Nat) :
    ∀ j ∈ (worldsOrder pts).take q, ∀ k, k < pts.length →
      k ∉ (worldsOrder pts).take q → pts.getD k 0 ≤ pts.getD j 0 := by
  intro j hj k hk hknot
  have hwo : worldsOrder pts = (rankBy pts).1 := rfl
  have hmap : (worldsOrder pts).take q
      = ((pts.enum.insertionSort perfDescOrder).take q).map (fun x => x.1) := by
    rw [worldsOrder, List.map_take]
  rcases List.mem_map.mp (hmap ▸ hj) with ⟨a, ha, haj⟩
  have hamem : a ∈ pts.enum.insertionSort perfDescOrder := List.mem_of_mem_take ha
  have hkmem : k ∈ worldsOrder pts := by
    rw [hwo]; exact mem_rankBy_order hk
  have hksplit : k ∈ ((pts.enum.insertionSort perfDescOrder).take q).map (fun x => x.1)
      ++ ((pts.enum.insertionSort perfDescOrder).drop q).map (fun x => x.1) := by
    rw [← List.map_append, List.take_append_drop]
    exact hkmem
  have hkdrop : k ∈ ((pts.enum.insertionSort perfDescOrder).drop q).map (fun x => x.1) := by
    rcases List.mem_append.mp hksplit with hcase | hcase
    · exact absurd (hmap ▸ hcase) hknot
    · exact hcase
  rcases List.mem_map.mp hkdrop with ⟨b, hb, hbk⟩
  have hbmem : b ∈ pts.enum.insertionSort perfDescOrder := List.mem_of_mem_drop hb
  have hpw : ((pts.enum.insertionSort perfDescOrder).take q
      ++ (pts.enum.insertionSort perfDescOrder).drop q).Pairwise perfDescOrder := by
    rw [List.take_append_drop]
    exact rankBy_sorted pts
  have hrel := (List.pairwise_append.mp hpw).2.2 a ha b hb
  have hva : pts.getD a.1 0 = a.2 := sorted_mem_val hamem
  have hvb : pts.getD b.1 0 = b.2 := sorted_mem_val hbmem
  rw [← haj, ← hbk, hva, hvb]
  exact hrel

/-- C6: when Worlds runs after a Regional, (i) the roster keeps its size
(synthetic entrants are never persisted), (ii) only the selected qualifiers'
roster entries can change — every synthetic entrant's resulting balance is
discarded and every non-qualifier is untouched, (iii) the 12 kept slots
dominate every non-kept slot in point score `weight[rank-1] * 100` (top 12
by score, not by raw rank), (iv) each synthetic entrant enters with
skill `medianSkill + noise * 0.8` and balance exactly `medianChips`, and
(v) each selected qualifier's persisted balance is exactly the synthesized
Worlds settlement output at its roster slot: whenever the qualifier list is
duplicate-free and within roster range, the k-th qualifier's stored chips
after `runWorlds` equal the chips of entry k of `tierRun`'s `playersAfter`
for the synthesized field — the real competitors' resulting balances are
written back. -/
theorem runWorlds_qualifiers_and_synthesis (st : SimState) (extNoise perfNoise : List ℚ)
    (regIdxs regRanks : List Nat)
    (hreg : findLastRegional st.history = some (regIdxs, regRanks)) :
    (runWorlds st extNoise perfNoise).players.length = st.players.length ∧
    (∀ pid : Nat, pid ∉ worldsQualifiers regIdxs regRanks →
      (runWorlds st extNoise perfNoise).players.getD pid defaultPlayer
        = st.players.getD pid defaultPlayer) ∧
    (∀ j ∈ (worldsOrder (regRanks.map (fun r =>
        (weightsReg regIdxs.length).getD (r - 1) 0 * 100))).take FIXED_SIZES.ourWorldQuota,
      ∀ k, k < regRanks.length →
        k ∉ (worldsOrder (regRanks.map (fun r =>
          (weightsReg regIdxs.length).getD (r - 1) 0 * 100))).take FIXED_SIZES.ourWorldQuota →
        (regRanks.map (fun r => (weightsReg regIdxs.length).getD (r - 1) 0 * 100)).getD k 0
          ≤ (regRanks.map (fun r =>
              (weightsReg regIdxs.length).getD (r - 1) 0 * 100)).getD j 0) ∧
    (∀ i, i < FIXED_SIZES.world - (worldsQualifiers regIdxs regRanks).length →
      (worldsField st.players regIdxs regRanks extNoise).getD
          ((worldsQualifiers regIdxs regRanks).length + i) defaultPlayer
        = ⟨-1, median ((worldsQualifiers regIdxs regRanks).map (fun pi =>
              (st.players.getD pi defaultPlayer).skill))
            + extNoise.getD i 0 * (8/10),
            median ((worldsQualifiers regIdxs regRanks).map (fun pi =>
              (st.players.getD pi defaultPlayer).chips))⟩) ∧
    ((worldsQualifiers regIdxs regRanks).Nodup →
      (∀ pi ∈ worldsQualifiers regIdxs regRanks, pi < st.players.length) →
      ∀ k, k < (worldsQualifiers regIdxs regRanks).length →
      ((runWorlds st extNoise perfNoise).players.getD
          ((worldsQualifiers regIdxs regRanks).getD k 0) defaultPlayer).chips
        = ((tierRun
            (List.range ((worldsQualifiers regIdxs regRanks).map
                  (fun (pi : Nat) => Int.ofNat pi)
                ++ List.replicate
                  (FIXED_SIZES.world - (worldsQualifiers regIdxs regRanks).length)
                  (-1 : Int)).length)
            (worldsField st.players regIdxs regRanks extNoise)
            st.params.z_world st.params.y_world
            (weightsWorld ((worldsQualifiers regIdxs regRanks).map
                  (fun (pi : Nat) => Int.ofNat pi)
                ++ List.replicate
                  (FIXED_SIZES.world - (worldsQualifiers regIdxs regRanks).length)
                  (-1 : Int)).length)
            false none perfNoise).playersAfter.getD k defaultPlayer).chips) := by
  refine ⟨?_, ?_, ?_, ?_, ?_⟩
  · simp only [runWorlds, hreg]
    refine foldl_induction _ _ _ (fun (ps : List Player) => ps.length = st.players.length) rfl ?_
    intro ps k hk hP
    have hk' : k < (worldsQualifiers regIdxs regRanks).length
        + (FIXED_SIZES.world - (worldsQualifiers regIdxs regRanks).length) := by
      have := List.mem_range.mp hk
      simpa [List.length_append, List.length_map, List.length_replicate] using this
    rcases allIdxs_getD_cases (worldsQualifiers regIdxs regRanks)
        (FIXED_SIZES.world - (worldsQualifiers regIdxs regRanks).length) k hk'
      with ⟨heq, hlt⟩ | heq
    · simp only [heq]
      rw [setChips_length]
      exact hP
    · simp only [heq]
      exact hP
  · intro pid hpid
    simp only [runWorlds, hreg]
    refine foldl_induction _ _ _
      (fun (ps : List Player) => ps.getD pid defaultPlayer = st.players.getD pid defaultPlayer) rfl ?_
    intro ps k hk hP
    have hk' : k < (worldsQualifiers regIdxs regRanks).length
        + (FIXED_SIZES.world - (worldsQualifiers regIdxs regRanks).length) := by
      have := List.mem_range.mp hk
      simpa [List.length_append, List.length_map, List.length_replicate] using this
    rcases allIdxs_getD_cases (worldsQualifiers regIdxs regRanks)
        (FIXED_SIZES.world - (worldsQualifiers regIdxs regRanks).length) k hk'
      with ⟨heq, hlt⟩ | heq
    · simp only [heq]
      have hmem : (worldsQualifiers regIdxs regRanks).getD k 0
          ∈ worldsQualifiers regIdxs regRanks := by
        rw [List.getD_eq_getElem _ _ hlt]
        exact List.getElem_mem hlt
      have hne : pid ≠ (worldsQualifiers regIdxs regRanks).getD k 0 :=
        fun hcontra => hpid (hcontra ▸ hmem)
      rw [setChips_getD_ne _ _ _ _ hne]
      exact hP
    · simp only [heq]
      exact hP
  · intro j hj k hk hknot
    exact worldsOrder_take_dominates _ FIXED_SIZES.ourWorldQuota j hj k
      (by simpa using hk) hknot
  · intro i hi
    show ((worldsQualifiers regIdxs regRanks).map _ ++ (List.range _).map _).getD _ _ = _
    rw [List.getD_append_right _ _ _ _ (by simp), List.length_map]
    have hidx : (worldsQualifiers regIdxs regRanks).length + i
        - (worldsQualifiers regIdxs regRanks).length = i := by omega
    rw [hidx, List.getD_eq_getElem _ _ (by simpa using hi), List.getElem_map,
      List.getElem_range]
  · intro hnodup hbound k hk
    simp only [runWorlds, hreg]
    set Q := worldsQualifiers regIdxs regRanks
    set eN := FIXED_SIZES.world - Q.length
    set NW := (Q.map (fun (pi : Nat) => Int.ofNat pi)
        ++ List.replicate eN (-1 : Int)).length with hNW
    set res := tierRun (List.range NW) (worldsField st.players regIdxs regRanks extNoise)
        st.params.z_world st.params.y_world (weightsWorld NW) false none perfNoise
    have hNWval : NW = Q.length + eN := by
      rw [hNW]
      simp [List.length_append, List.length_map, List.length_replicate]
    have hkNW : k < NW := by omega
    have hneD : ∀ k2 ∈ (List.range NW).drop (k + 1),
        (Q.map (fun (pi : Nat) => Int.ofNat pi)
            ++ List.replicate eN (-1 : Int)).getD k2 0
          ≠ Int.ofNat (Q.getD k 0) := by
      intro k2 hk2 hEq
      have hk2NW : k2 < NW := List.mem_range.mp (List.mem_of_mem_drop hk2)
      have hk2lt : k2 < Q.length + eN := by omega
      rcases allIdxs_getD_cases Q eN k2 hk2lt with ⟨heq2, hlt2⟩ | heq2
      · rw [heq2] at hEq
        have hQeq := Int.ofNat.inj hEq
        have e1 := List.getD_eq_getElem Q 0 hlt2
        have e2 := List.getD_eq_getElem Q 0 hk
        rw [e1, e2] at hQeq
        exact range_drop_ne k NW hkNW k2 hk2
          ((List.Nodup.getElem_inj_iff hnodup).mp hQeq)
      · rw [heq2] at hEq
        exact Int.noConfusion hEq
    have hmemQ : Q.getD k 0 ∈ Q := by
      rw [List.getD_eq_getElem Q 0 hk]
      exact List.getElem_mem hk
    rw [range_split_at k NW hkNW, List.foldl_append, List.foldl_append,
      List.foldl_cons, List.foldl_nil, worldsWriteback_skip _ _ _ _ _ hneD]
    simp only [allIdxs_getD_lt Q eN k hk]
    refine setChips_getD_self _ _ _ ?_
    rw [worldsWriteback_length]
    exact hbound _ hmemQ

/-- Witness for C6 at a concrete state holding one Regional record. -/
theorem runWorlds_qualifiers_and_synthesis_witness :
    findLastRegional ([HistEvent.regional [0, 1] [1, 2]] : List HistEvent)
        = some ([0, 1], [1, 2]) ∧
      (runWorlds ⟨⟨100, 8, 50, 4, 100, 3, 400, 10⟩, [⟨0, 0, 100⟩, ⟨1, 0, 50⟩], "idle",
          [HistEvent.regional [0, 1] [1, 2]]⟩ [] []).players.length
        = ([⟨0, 0, 100⟩, ⟨1, 0, 50⟩] : List Player).length ∧
      (worldsQualifiers [0, 1] [1, 2]).Nodup ∧
      ((runWorlds ⟨⟨100, 8, 50, 4, 100, 3, 400, 10⟩, [⟨0, 0, 100⟩, ⟨1, 0, 50⟩], "idle",
            [HistEvent.regional [0, 1] [1, 2]]⟩ [] []).players.getD
            ((worldsQualifiers [0, 1] [1, 2]).getD 0 0) defaultPlayer).chips
        = ((tierRun
            (List.range ((worldsQualifiers [0, 1] [1, 2]).map
                  (fun (pi : Nat) => Int.ofNat pi)
                ++ List.replicate
                  (FIXED_SIZES.world - (worldsQualifiers [0, 1] [1, 2]).length)
                  (-1 : Int)).length)
            (worldsField [⟨0, 0, 100⟩, ⟨1, 0, 50⟩] [0, 1] [1, 2] [])
            3 400
            (weightsWorld ((worldsQualifiers [0, 1] [1, 2]).map
                  (fun (pi : Nat) => Int.ofNat pi)
                ++ List.replicate
                  (FIXED_SIZES.world - (worldsQualifiers [0, 1] [1, 2]).length)
                  (-1 : Int)).length)
            false none []).playersAfter.getD 0 defaultPlayer).chips :=
  ⟨by decide,
    (runWorlds_qualifiers_and_synthesis ⟨⟨100, 8, 50, 4, 100, 3, 400, 10⟩,
      [⟨0, 0, 100⟩, ⟨1, 0, 50⟩], "idle", [HistEvent.regional [0, 1] [1, 2]]⟩ [] []
      [0, 1] [1, 2] (by decide)).1,
    by decide,
    (runWorlds_qualifiers_and_synthesis ⟨⟨100, 8, 50, 4, 100, 3, 400, 10⟩,
      [⟨0, 0, 100⟩, ⟨1, 0, 50⟩], "idle", [HistEvent.regional [0, 1] [1, 2]]⟩ [] []
      [0, 1] [1, 2] (by decide)).2.2.2.2
      (by decide) (by decide) 0 (by decide)⟩

/-! Non-negativity of the weight builder (C3): the solved ramp values
`T_k = safeA + safeB * k` are non-negative in every flooring case. -/

theorem mem_set_nonneg (l : List ℚ) (hl : ∀ x ∈ l, 0 ≤ x) (i : Nat) (a : ℚ)
    (ha : 0 ≤ a) : ∀ x ∈ l.set i a, 0 ≤ x :=
  fun x hx => (List.mem_or_eq_of_mem_set hx).elim (hl x) (fun h => h ▸ ha)

/-- Core inequality: with band mass `S ≥ 0`, head pair total `H` between `0`
and `2S/(q+1)`, and `q ≥ 2` pairs, the floored ramp value at every
`k ∈ [1, q]` is non-negative. -/
theorem ramp_Tk_nonneg (q S H k : ℚ) (hq : 2 ≤ q) (hS : 0 ≤ S) (hH0 : 0 ≤ H)
    (hHle : (q + 1) * H ≤ 2 * S) (hk1 : 1 ≤ k) (hkq : k ≤ q) :
    0 ≤ floorTiny (H - (S - q * H) / ((q * (1 - q)) / 2) * q)
      + floorTiny ((S - q * H) / ((q * (1 - q)) / 2)) * k := by
  have hdneg : (q * (1 - q)) / 2 < 0 := by nlinarith
  have hdne : (q * (1 - q)) / 2 ≠ 0 := ne_of_lt hdneg
  set B : ℚ := (S - q * H) / ((q * (1 - q)) / 2) with hB
  set A : ℚ := H - B * q with hA
  have hBmul : B * ((q * (1 - q)) / 2) = S - q * H := by
    rw [hB]; exact div_mul_cancel₀ _ hdne
  have hqAB : q * (A + B) = 2 * S - q * H := by
    rw [hA]; linear_combination (2 : ℚ) * hBmul
  have h2S : 0 ≤ 2 * S - q * H := by nlinarith
  have hABnn : 0 ≤ A + B := by nlinarith [hqAB, h2S]
  have hApBq : A + B * q = H := by rw [hA]; ring
  unfold floorTiny
  split_ifs with h1 h2 h2
  · -- A and B both floored: impossible (B < 0 forces A ≥ H ≥ 0)
    exfalso
    nlinarith
  · -- A floored, B kept: then B > 0 and the value is B * k ≥ 0
    have hBpos : 0 < B := by nlinarith
    have := mul_nonneg hBpos.le (show (0 : ℚ) ≤ k by linarith)
    linarith
  · -- B floored, A kept: then A ≥ H ≥ 0
    have : 0 ≤ A := by nlinarith
    linarith
  · -- nothing floored: interpolate between T_1 = A + B ≥ 0 and T_q = H ≥ 0
    rcases le_or_lt 0 B with hB0 | hB0
    · have := mul_nonneg hB0 (show (0 : ℚ) ≤ k - 1 by linarith)
      nlinarith
    · have := mul_nonneg (neg_nonneg.mpr hB0.le)
        (neg_nonneg.mpr (show k - q ≤ (0 : ℚ) by linarith))
      nlinarith [hApBq]

theorem getD_nonneg (l : List ℚ) (hl : ∀ x ∈ l, 0 ≤ x) (i : Nat) : 0 ≤ l.getD i 0 := by
  rcases lt_or_ge i l.length with h | h
  · rw [List.getD_eq_getElem _ _ h]
    exact hl _ (List.getElem_mem h)
  · rw [List.getD_eq_default _ _ h]

theorem bandWrite_nonneg (w : List ℚ) (hw : ∀ x ∈ w, 0 ≤ x) (e p : Nat)
    (safeA safeB : ℚ) (hT : ∀ k0 : Nat, k0 < p → 0 ≤ safeA + safeB * ((k0 : ℚ) + 1)) :
    ∀ x ∈ (List.range p).foldl (fun wa (k0 : Nat) =>
        (wa.set (e - k0 * 2 - 1 - 1) ((safeA + safeB * ((k0 : ℚ) + 1)) / 2)).set
          (e - k0 * 2 - 1) ((safeA + safeB * ((k0 : ℚ) + 1)) / 2)) w, 0 ≤ x := by
  refine foldl_induction _ _ _ (fun (ps : List ℚ) => ∀ x ∈ ps, 0 ≤ x) hw ?_
  intro ps k0 hk0 hps
  have hper : 0 ≤ (safeA + safeB * ((k0 : ℚ) + 1)) / 2 :=
    div_nonneg (hT k0 (List.mem_range.mp hk0)) (by norm_num)
  exact mem_set_nonneg _ (mem_set_nonneg _ hps _ _ hper) _ _ hper

theorem bandRamp_nonneg (e p : Nat) (S : ℚ) (pt : Option ℚ) (w : List ℚ)
    (hw : ∀ x ∈ w, 0 ≤ x) (ht : ∀ t, pt = some t → 0 ≤ t) (hS : 0 ≤ S)
    (hp2 : 2 ≤ p) :
    (∀ x ∈ (bandRamp e p S pt w).1, 0 ≤ x) ∧
    (∀ t, (bandRamp e p S pt w).2 = some t → 0 ≤ t) := by
  have hq : (2 : ℚ) ≤ (p : ℚ) := by exact_mod_cast hp2
  have hp1 : (0 : ℚ) < (p : ℚ) + 1 := by linarith
  have hcancel : ((p : ℚ) + 1) * (S / ((p : ℚ) + 1) * 2) = 2 * S := by
    field_simp
    ring
  cases pt with
  | none =>
    simp only [bandRamp]
    have hTk : ∀ k0 : Nat, k0 < p →
        0 ≤ floorTiny (S / ((p : ℚ) + 1) * 2
            - (S - (p : ℚ) * (S / ((p : ℚ) + 1) * 2))
              / ((p : ℚ) * (1 - (p : ℚ)) / 2) * (p : ℚ))
          + floorTiny ((S - (p : ℚ) * (S / ((p : ℚ) + 1) * 2))
              / ((p : ℚ) * (1 - (p : ℚ)) / 2)) * ((k0 : ℚ) + 1) := by
      intro k0 hk0
      refine ramp_Tk_nonneg (p : ℚ) S (S / ((p : ℚ) + 1) * 2) ((k0 : ℚ) + 1) hq hS
        (by positivity) (le_of_eq hcancel)
        (by linarith [Nat.cast_nonneg (α := ℚ) k0]) ?_
      have : k0 + 1 ≤ p := hk0
      exact_mod_cast this
    refine ⟨bandWrite_nonneg w hw _ _ _ _ hTk, ?_⟩
    intro t htt
    have h := Option.some.inj htt
    exact h ▸ getD_nonneg _ (bandWrite_nonneg w hw _ _ _ _ hTk) _
  | some t0 =>
    simp only [bandRamp]
    have ht0 : 0 ≤ t0 := ht t0 rfl
    have hu0 : 0 ≤ S / ((p : ℚ) + 1) := div_nonneg hS hp1.le
    have hH0 : 0 ≤ min t0 (S / ((p : ℚ) + 1)) * 2 :=
      mul_nonneg (le_min ht0 hu0) (by norm_num)
    have hHle : ((p : ℚ) + 1) * (min t0 (S / ((p : ℚ) + 1)) * 2) ≤ 2 * S := by
      calc ((p : ℚ) + 1) * (min t0 (S / ((p : ℚ) + 1)) * 2)
          = 2 * ((p : ℚ) + 1) * min t0 (S / ((p : ℚ) + 1)) := by ring
        _ ≤ 2 * ((p : ℚ) + 1) * (S / ((p : ℚ) + 1)) :=
            mul_le_mul_of_nonneg_left (min_le_right _ _) (by positivity)
        _ = 2 * S := by
            field_simp
            ring
    have hTk : ∀ k0 : Nat, k0 < p →
        0 ≤ floorTiny (min t0 (S / ((p : ℚ) + 1)) * 2
            - (S - (p : ℚ) * (min t0 (S / ((p : ℚ) + 1)) * 2))
              / ((p : ℚ) * (1 - (p : ℚ)) / 2) * (p : ℚ))
          + floorTiny ((S - (p : ℚ) * (min t0 (S / ((p : ℚ) + 1)) * 2))
              / ((p : ℚ) * (1 - (p : ℚ)) / 2)) * ((k0 : ℚ) + 1) := by
      intro k0 hk0
      refine ramp_Tk_nonneg (p : ℚ) S (min t0 (S / ((p : ℚ) + 1)) * 2) ((k0 : ℚ) + 1)
        hq hS hH0 hHle (by linarith [Nat.cast_nonneg (α := ℚ) k0]) ?_
      have : k0 + 1 ≤ p := hk0
      exact_mod_cast this
    refine ⟨bandWrite_nonneg w hw _ _ _ _ hTk, ?_⟩
    intro t htt
    have h := Option.some.inj htt
    exact h ▸ getD_nonneg _ (bandWrite_nonneg w hw _ _ _ _ hTk) _

theorem bandStep_nonneg (N : Nat) (acc : List ℚ × Option ℚ) (b : Band)
    (hw : ∀ x ∈ acc.1, 0 ≤ x) (ht : ∀ t, acc.2 = some t → 0 ≤ t) (hS : 0 ≤ b.total) :
    (∀ x ∈ (bandStep N acc b).1, 0 ≤ x) ∧
    (∀ t, (bandStep N acc b).2 = some t → 0 ≤ t) := by
  obtain ⟨w, pt⟩ := acc
  simp only [bandStep]
  split_ifs with h1 hodd hpA0 hpA1 hpB0 hpB1
  · exact ⟨hw, ht⟩
  · exact ⟨hw, ht⟩
  · -- single-pair branch (odd band length trimmed by one)
    refine ⟨mem_set_nonneg _ (mem_set_nonneg _ hw _ _ (by positivity)) _ _ (by positivity),
      ?_⟩
    intro t htt
    have h := Option.some.inj htt
    exact h ▸ (by positivity)
  · exact bandRamp_nonneg _ _ _ _ _ hw ht hS (by omega)
  · exact ⟨hw, ht⟩
  · -- single-pair branch (even band length)
    refine ⟨mem_set_nonneg _ (mem_set_nonneg _ hw _ _ (by positivity)) _ _ (by positivity),
      ?_⟩
    intro t htt
    have h := Option.some.inj htt
    exact h ▸ (by positivity)
  · exact bandRamp_nonneg _ _ _ _ _ hw ht hS (by omega)

theorem buildMonotoneByPairs_nonneg (N : Nat) (top1 top2 : ℚ) (bands : List Band)
    (h1 : 0 ≤ top1) (h2 : 0 ≤ top2) (hb : ∀ b ∈ bands, 0 ≤ b.total) :
    ∀ x ∈ buildMonotoneByPairs N top1 top2 bands, 0 ≤ x := by
  have hfold : ∀ (bs : List Band) (acc : List ℚ × Option ℚ),
      (∀ x ∈ acc.1, 0 ≤ x) → (∀ t, acc.2 = some t → 0 ≤ t) →
      (∀ b ∈ bs, 0 ≤ b.total) →
      ∀ x ∈ (bs.foldl (bandStep N) acc).1, 0 ≤ x := by
    intro bs
    induction bs with
    | nil => intro acc hw ht _; exact hw
    | cons b bs ih =>
      intro acc hw ht hb'
      have hstep := bandStep_nonneg N acc b hw ht (hb' b (List.mem_cons_self _ _))
      exact ih _ hstep.1 hstep.2 (fun b' hb'' => hb' b' (List.mem_cons_of_mem _ hb''))
  simp only [buildMonotoneByPairs]
  refine hfold _ _ ?_ ?_ hb
  · intro x hx
    have hrep : ∀ v ∈ List.replicate N (0 : ℚ), 0 ≤ v := by
      intro v hv
      rw [List.eq_of_mem_replicate hv]
    have hx' : x ∈ (if 2 ≤ N then
        (if 1 ≤ N then (List.replicate N (0 : ℚ)).set 0 top1
          else List.replicate N 0).set 1 top2
        else (if 1 ≤ N then (List.replicate N (0 : ℚ)).set 0 top1
          else List.replicate N 0)) := hx
    split_ifs at hx' with hN2 hN1 hN1
    all_goals first
      | exact mem_set_nonneg _ (mem_set_nonneg _ hrep _ _ h1) _ _ h2 x hx'
      | exact mem_set_nonneg _ hrep _ _ h2 x hx'
      | exact mem_set_nonneg _ hrep _ _ h1 x hx'
      | exact hrep x hx'
  · intro t htt
    have htt' : (if 2 ≤ N then some top2 else (none : Option ℚ)) = some t := htt
    split_ifs at htt' with hN2
    exact (Option.some.inj htt') ▸ h2

set_option maxRecDepth 10000 in
/-- Counterexample to C3's sum clause: the Regional-32 band configuration
meets every stated condition — non-negative inputs, `top1 + top2 + Σ totals
= 1`, declared bands inside `1..N` of even length — yet the produced weights
sum to `49/45`, not `1`: band 9–16's clamped head makes the solved ramp
slope negative, and flooring it breaks band-total conservation. -/
theorem buildMonotoneByPairs_sum_counterexample :
    ((20/100 : ℚ) + 12/100 + (16/100 + 20/100 + 32/100) = 1) ∧
    (∀ b ∈ ([⟨3, 4, 16/100⟩, ⟨5, 8, 20/100⟩, ⟨9, 16, 32/100⟩] : List Band),
      1 ≤ b.start ∧ b.stop ≤ 32 ∧ b.start ≤ b.stop ∧ (b.stop - b.start + 1) % 2 = 0
        ∧ 0 ≤ b.total) ∧
    (buildMonotoneByPairs 32 (20/100) (12/100)
        [⟨3, 4, 16/100⟩, ⟨5, 8, 20/100⟩, ⟨9, 16, 32/100⟩]).sum = 49/45 ∧
    ¬ (buildMonotoneByPairs 32 (20/100) (12/100)
        [⟨3, 4, 16/100⟩, ⟨5, 8, 20/100⟩, ⟨9, 16, 32/100⟩]).sum = 1 := by
  decide

set_option maxRecDepth 10000 in
/-- C3 as amended: with non-negative `top1`, `top2`, and band totals, every
output weight of the builder is non-negative in every configuration
(flooring never produces a negative weight), and the sum-to-1 guarantee
holds for the configurations that avoid the degenerate flooring fallback —
in particular the Cup(128), Worlds(48) and S15-Regional(48) production
schedules sum to exactly 1. -/
theorem buildMonotoneByPairs_nonneg_and_sound_schedules :
    (∀ (N : Nat) (top1 top2 : ℚ) (bands : List Band),
      0 ≤ top1 → 0 ≤ top2 → (∀ b ∈ bands, 0 ≤ b.total) →
      ∀ x ∈ buildMonotoneByPairs N top1 top2 bands, 0 ≤ x) ∧
    (weightsCup 128).sum = 1 ∧ (weightsWorld 48).sum = 1 ∧
    (weightsReg48 48).sum = 1 := by
  refine ⟨buildMonotoneByPairs_nonneg, ?_, ?_, ?_⟩ <;> decide

/-- Witness for the amended C3: a degenerate one-band schedule at N = 4
(clamp active: `0.76/2 > top2`), where the theorem yields non-negativity of
the written weight `0.38`. -/
theorem buildMonotoneByPairs_nonneg_witness :
    0 ≤ (15/100 : ℚ) ∧ 0 ≤ (9/100 : ℚ) ∧
      (∀ b ∈ ([⟨3, 4, 76/100⟩] : List Band), 0 ≤ b.total) ∧ 0 ≤ (38/100 : ℚ) :=
  ⟨by norm_num, by norm_num, by decide,
    buildMonotoneByPairs_nonneg_and_sound_schedules.1 4 (15/100) (9/100)
      [⟨3, 4, 76/100⟩] (by norm_num) (by norm_num) (by decide) (38/100) (by decide)⟩

/-- The self-test helper `nonIncreasing(arr)` (exact version): no rank's
weight exceeds the previous rank's. -/
def nonIncreasing (arr : List ℚ) : Bool :=
  (List.range arr.length).all (fun i =>
    decide (i = 0) || decide (arr.getD i 0 ≤ arr.getD (i - 1) 0))

/-- The self-test helper `rangeSum(arr, s, e)`: sum of the weights of ranks
`s..e` (1-based), `arr.slice(s-1, e)` summed. -/
def rangeSum (arr : List ℚ) (s e : Nat) : ℚ :=
  ((arr.drop (s - 1)).take (e - s + 1)).sum

/-- The self-test helper `pairsEqual(arr, s, e)` (exact version): ranks
`r = s, s+2, ...` up to `e` satisfy `arr[r-1] = arr[r]`. -/
def pairsEqual (arr : List ℚ) (s e : Nat) : Bool :=
  (List.range ((e - s) / 2 + 1)).all (fun i =>
    decide (arr.getD (s - 1 + 2 * i) 0 = arr.getD (s + 2 * i) 0))

set_option maxRecDepth 10000 in
/-- C2 audit (code bug): `weightsCup(128)` satisfies every claimed invariant
exactly — sum 1, declared top weights and band totals, pairwise-equal bands,
non-increasing, zero beyond rank 64 — and `weightsWorld(48)`,
`weightsReg48(48)` sum to 1; but `weightsReg(32)` and `weightsTPC(32)`
violate the invariants asserted by the repository's own self-tests: band
9–16 of Reg(32) totals `92/225` instead of `0.32`, its sum is `49/45`
instead of `1`, rank 9's weight exceeds rank 8's (non-increasingness
fails), and TPC(32) sums to `53/45`. -/
theorem weight_schedule_audit :
    (weightsCup 128).sum = 1 ∧
    (weightsCup 128).getD 0 0 = 15/100 ∧ (weightsCup 128).getD 1 0 = 9/100 ∧
    rangeSum (weightsCup 128) 3 4 = 12/100 ∧ rangeSum (weightsCup 128) 5 8 = 16/100 ∧
    rangeSum (weightsCup 128) 9 16 = 16/100 ∧ rangeSum (weightsCup 128) 17 32 = 16/100 ∧
    rangeSum (weightsCup 128) 33 64 = 16/100 ∧
    ((weightsCup 128).drop 64).all (fun x => decide (x = 0)) = true ∧
    nonIncreasing (weightsCup 128) = true ∧
    pairsEqual (weightsCup 128) 3 4 = true ∧ pairsEqual (weightsCup 128) 5 8 = true ∧
    pairsEqual (weightsCup 128) 9 16 = true ∧ pairsEqual (weightsCup 128) 17 32 = true ∧
    pairsEqual (weightsCup 128) 33 64 = true ∧
    (weightsWorld 48).sum = 1 ∧ (weightsReg48 48).sum = 1 ∧
    (weightsReg 32).getD 0 0 = 20/100 ∧ (weightsReg 32).getD 1 0 = 12/100 ∧
    rangeSum (weightsReg 32) 3 4 = 16/100 ∧ rangeSum (weightsReg 32) 5 8 = 20/100 ∧
    rangeSum (weightsReg 32) 9 16 = 92/225 ∧ ¬ rangeSum (weightsReg 32) 9 16 = 32/100 ∧
    (weightsReg 32).sum = 49/45 ∧ ¬ (weightsReg 32).sum = 1 ∧
    (weightsReg 32).getD 7 0 < (weightsReg 32).getD 8 0 ∧
    nonIncreasing (weightsReg 32) = false ∧
    (weightsTPC 32).sum = 53/45 ∧ ¬ (weightsTPC 32).sum = 1 := by
  decide

/-- Witness for C8 at `values = [3, 1, 2]`: slot 0 holds rank 1 and its
value dominates slot 1's. -/
theorem rankBy_ranks_bijection_witness :
    ((rankBy [3, 1, 2]).2.getD 0 0 = 1) ∧
      (([3, 1, 2] : List ℚ).getD 1 0 ≤ ([3, 1, 2] : List ℚ).getD 0 0) :=
  ⟨by decide, (rankBy_ranks_bijection [3, 1, 2]).2 0 (by decide) (by decide) 1 (by decide)⟩
